import Mathlib

/-!
Verification development for the vengi voxel-format conversion core.

The C++ sources available under src/ are: RegionTest.cpp, FormatPaletteTest.cpp,
FilesystemTest.cpp (tests), ZipArchive.cpp and VoxConvert.cpp (implementations).
The Region, Palette/PaletteLookup and SceneGraph implementations themselves are
not part of the excerpt; where a definition below embeds one of those missing
pieces, its doc comment says so and names the spec sections and in-repo test
assertions that pin the behaviour down.  Machine integers (C `int`) are embedded
as `Int`; all inputs appearing in the theorems are far away from the 32-bit
overflow range, and C's truncated `%` is `Int.tmod`.
-/

namespace Vengi

/-- Integer 3d vector, mirroring `glm::ivec3` as used by `voxel::Region`. -/
structure IVec3 where
  x : Int
  y : Int
  z : Int
deriving DecidableEq, Repr

/-- voxel::Region: inclusive integer axis-aligned bounding box given by its
lower and upper corner. -/
structure Region where
  lower : IVec3
  upper : IVec3
deriving DecidableEq, Repr

namespace Region

/-- Region validity: `lower <= upper` on every axis (spec section 3: a Region
with `lower > upper` on any axis is the invalid sentinel). -/
def isValid (r : Region) : Bool :=
  r.lower.x ≤ r.upper.x && r.lower.y ≤ r.upper.y && r.lower.z ≤ r.upper.z

/-- Region::getDimensionsInVoxels: `upper - lower + 1` per axis (spec section 3). -/
def dim (r : Region) : IVec3 :=
  ⟨r.upper.x - r.lower.x + 1, r.upper.y - r.lower.y + 1, r.upper.z - r.lower.z + 1⟩

/-- Modelled from the spec: `voxel::Region::containsPoint(pos, boundary)` whose
implementation is not under src/.  Spec section 4.1 describes an interval test
offset by `boundary`; the direction of the offset is fixed by
RegionTest.testContains (`containsPoint(mins, 1)` and `containsPoint(maxs, 1)`
are asserted false), so the boundary shrinks the region: the test is against
`[lower + boundary, upper - boundary]`.  The `boundary` parameter is a C
`uint8_t`, embedded as `Nat`. -/
def containsPoint (r : Region) (p : IVec3) (boundary : Nat := 0) : Bool :=
  p.x ≤ r.upper.x - boundary && p.y ≤ r.upper.y - boundary && p.z ≤ r.upper.z - boundary &&
  p.x ≥ r.lower.x + boundary && p.y ≥ r.lower.y + boundary && p.z ≥ r.lower.z + boundary

/-- Modelled from the spec: `voxel::Region::containsRegion(other, boundary)`
(spec section 4.1), not under src/: every corner of `other` must satisfy
`containsPoint`, which reduces to comparing the two corner pairs. -/
def containsRegion (r other : Region) (boundary : Nat := 0) : Bool :=
  other.upper.x ≤ r.upper.x - boundary && other.upper.y ≤ r.upper.y - boundary &&
  other.upper.z ≤ r.upper.z - boundary && other.lower.x ≥ r.lower.x + boundary &&
  other.lower.y ≥ r.lower.y + boundary && other.lower.z ≥ r.lower.z + boundary

/-- Modelled from the spec: `voxel::Region::moveInto(x, y, z)` whose
implementation is not under src/.  Spec section 4.1 describes a step-and-re-anchor
operation; the arithmetic is fixed by the nine moveInto assertions of
RegionTest.cpp (see `moveInto_matches_RegionTest`): each component is the step
taken modulo the region dimension with C truncated `%`, added to the lower
corner for a nonnegative step and to the upper corner for a negative step. -/
def moveInto (r : Region) (x y z : Int) : IVec3 :=
  ⟨(if x < 0 then r.upper.x else r.lower.x) + Int.tmod x (r.dim).x,
   (if y < 0 then r.upper.y else r.lower.y) + Int.tmod y (r.dim).y,
   (if z < 0 then r.upper.z else r.lower.z) + Int.tmod z (r.dim).z⟩

end Region

/-- Validation of the Region model: it reproduces every assertion of the nine
moveInto test cases of RegionTest.cpp (testMoveIntoRegionSize1WithOverlap,
testMoveIntoRegionSize1NoOverlap, testMoveIntoRegionSize1XOverlap,
testMoveIntoNoOverlap, testMoveIntoYOverlap, testMoveIntoYBoundary,
testMoveIntoYBoundaryNoOriginZero, testMoveIntoYBoundaryNoOriginZeroNoOverlap,
testMoveIntoNegativeMins, testMoveIntoNegativeSteps, testMoveIntoBiggerThanSize). -/
theorem moveInto_matches_RegionTest :
    (Region.mk ⟨0, 0, 0⟩ ⟨0, 0, 0⟩).moveInto 2 2 2 = ⟨0, 0, 0⟩ ∧
    (Region.mk ⟨0, 0, 0⟩ ⟨0, 0, 0⟩).moveInto 0 0 0 = ⟨0, 0, 0⟩ ∧
    (Region.mk ⟨0, 0, 0⟩ ⟨0, 0, 0⟩).moveInto 10 0 0 = ⟨0, 0, 0⟩ ∧
    (Region.mk ⟨0, 0, 0⟩ ⟨10, 10, 10⟩).moveInto 2 2 2 = ⟨2, 2, 2⟩ ∧
    (Region.mk ⟨0, 0, 0⟩ ⟨10, 10, 10⟩).moveInto 2 20 2 = ⟨2, 9, 2⟩ ∧
    (Region.mk ⟨0, 0, 0⟩ ⟨10, 10, 10⟩).moveInto 2 10 2 = ⟨2, 10, 2⟩ ∧
    (Region.mk ⟨10, 10, 10⟩ ⟨11, 11, 11⟩).moveInto 2 2 2 = ⟨10, 10, 10⟩ ∧
    (Region.mk ⟨10, 10, 10⟩ ⟨15, 15, 15⟩).moveInto 2 2 2 = ⟨12, 12, 12⟩ ∧
    (Region.mk ⟨-10, -10, -10⟩ ⟨15, 15, 15⟩).moveInto 2 2 2 = ⟨-8, -8, -8⟩ ∧
    (Region.mk ⟨-10, -10, -10⟩ ⟨15, 15, 15⟩).moveInto (-2) (-2) (-2) = ⟨13, 13, 13⟩ ∧
    (Region.mk ⟨-10, -10, -10⟩ ⟨10, 10, 10⟩).moveInto 41 41 (-41) = ⟨10, 10, -10⟩ := by
  decide

/-- Validation of the Region model: it reproduces every assertion of
RegionTest.testContains on the region `[0,15]^3`. -/
theorem containsPoint_matches_RegionTest :
    ((Region.mk ⟨0, 0, 0⟩ ⟨15, 15, 15⟩).containsPoint ⟨0, 0, 0⟩ = true) ∧
    ((Region.mk ⟨0, 0, 0⟩ ⟨15, 15, 15⟩).containsPoint ⟨15, 15, 15⟩ = true) ∧
    ((Region.mk ⟨0, 0, 0⟩ ⟨15, 15, 15⟩).containsPoint ⟨0, 0, 0⟩ 1 = false) ∧
    ((Region.mk ⟨0, 0, 0⟩ ⟨15, 15, 15⟩).containsPoint ⟨15, 15, 15⟩ 1 = false) ∧
    ((Region.mk ⟨0, 0, 0⟩ ⟨15, 15, 15⟩).containsPoint ⟨16, 16, 16⟩ = false) ∧
    ((Region.mk ⟨0, 0, 0⟩ ⟨15, 15, 15⟩).containsRegion (Region.mk ⟨0, 0, 0⟩ ⟨15, 15, 15⟩) = true) ∧
    ((Region.mk ⟨0, 0, 0⟩ ⟨15, 15, 15⟩).containsRegion (Region.mk ⟨0, 0, 0⟩ ⟨15, 15, 15⟩) 1 = false) := by
  decide

/-- Helper: C truncated remainder negates with the dividend. -/
theorem tmod_neg_dividend (a b : Int) : Int.tmod (-a) b = -Int.tmod a b := by
  simp [Int.tmod_def, Int.neg_tdiv, Int.mul_neg, Int.neg_sub]
  ring

/-- Helper: bounds of the C truncated remainder for a negative dividend. -/
theorem tmod_bounds_of_neg {a s : Int} (ha : a < 0) (hs : 0 < s) :
    -s < Int.tmod a s ∧ Int.tmod a s ≤ 0 := by
  have hrw : a = -(-a) := by ring
  rw [hrw, tmod_neg_dividend]
  have h1 : 0 ≤ Int.tmod (-a) s := Int.tmod_nonneg s (by omega)
  have h2 : Int.tmod (-a) s < s := Int.tmod_lt_of_pos _ hs
  omega

/-- Helper: one axis of `moveInto` always lands inside `[lo, hi]`. -/
theorem moveIntoAxis_mem {lo hi : Int} (x : Int) (h : lo ≤ hi) :
    lo ≤ (if x < 0 then hi else lo) + Int.tmod x (hi - lo + 1) ∧
    (if x < 0 then hi else lo) + Int.tmod x (hi - lo + 1) ≤ hi := by
  have hspos : 0 < hi - lo + 1 := by omega
  by_cases hx : x < 0
  · simp only [if_pos hx]
    have := tmod_bounds_of_neg hx hspos
    omega
  · simp only [if_neg hx]
    have h1 : 0 ≤ Int.tmod x (hi - lo + 1) := Int.tmod_nonneg _ (by omega)
    have h2 : Int.tmod x (hi - lo + 1) < hi - lo + 1 := Int.tmod_lt_of_pos _ hspos
    omega

/-- Helper: one axis of `moveInto` is the identity shift when the step keeps
the coordinate inside the region. -/
theorem moveIntoAxis_id {lo hi x : Int} (h0 : 0 ≤ x) (hlt : x ≤ hi - lo) :
    (if x < 0 then hi else lo) + Int.tmod x (hi - lo + 1) = lo + x := by
  have hmod : Int.tmod x (hi - lo + 1) = x := by
    rw [Int.tmod_eq_emod h0 (by omega)]
    exact Int.emod_eq_of_lt h0 (by omega)
  rw [if_neg (not_lt.mpr h0), hmod]

/-- Helper: one axis of `moveInto` is a fixed point of itself when the lower
bound is nonnegative and divisible by the axis size. -/
theorem moveIntoAxis_idem {lo hi : Int} (x : Int) (h : lo ≤ hi) (h0 : 0 ≤ lo)
    (hd : (hi - lo + 1) ∣ lo) :
    (if ((if x < 0 then hi else lo) + Int.tmod x (hi - lo + 1)) < 0 then hi else lo) +
        Int.tmod ((if x < 0 then hi else lo) + Int.tmod x (hi - lo + 1)) (hi - lo + 1) =
      (if x < 0 then hi else lo) + Int.tmod x (hi - lo + 1) := by
  obtain ⟨hmem1, hmem2⟩ := moveIntoAxis_mem x h
  set p := (if x < 0 then hi else lo) + Int.tmod x (hi - lo + 1) with hp
  have hppos : 0 ≤ p := le_trans h0 hmem1
  rw [if_neg (not_lt.mpr hppos)]
  obtain ⟨k, hk⟩ := hd
  have h1 : Int.tmod p (hi - lo + 1) = p % (hi - lo + 1) := Int.tmod_eq_emod hppos (by omega)
  have hpe : p = p - lo + (hi - lo + 1) * k := by rw [← hk]; ring
  have h2 : p % (hi - lo + 1) = (p - lo) % (hi - lo + 1) := by
    nth_rewrite 1 [hpe]
    exact Int.add_mul_emod_self_left _ _ _
  have h3 : (p - lo) % (hi - lo + 1) = p - lo := Int.emod_eq_of_lt (by omega) (by omega)
  rw [h1, h2, h3]
  ring

/-- C4 (amended): for every valid Region and step, `moveInto` never rejects and
never clamps: the result always lies inside the Region, each component being the
step taken modulo the region dimension (C truncated remainder) anchored at the
lower corner for nonnegative steps and at the upper corner for negative steps —
a modular wrap; when the offset from the lower corner lands inside the Region
(`0 <= step <= upper - lower`), the unmodified target `lower + step` is
returned. -/
theorem moveInto_wraps_into_region (r : Region) (x y z : Int) (hv : r.isValid = true) :
    r.containsPoint (r.moveInto x y z) 0 = true ∧
    ((0 ≤ x ∧ x ≤ r.upper.x - r.lower.x) → (r.moveInto x y z).x = r.lower.x + x) ∧
    ((0 ≤ y ∧ y ≤ r.upper.y - r.lower.y) → (r.moveInto x y z).y = r.lower.y + y) ∧
    ((0 ≤ z ∧ z ≤ r.upper.z - r.lower.z) → (r.moveInto x y z).z = r.lower.z + z) ∧
    (r.moveInto x y z).x = (if x < 0 then r.upper.x else r.lower.x) + Int.tmod x (r.dim).x ∧
    (r.moveInto x y z).y = (if y < 0 then r.upper.y else r.lower.y) + Int.tmod y (r.dim).y ∧
    (r.moveInto x y z).z = (if z < 0 then r.upper.z else r.lower.z) + Int.tmod z (r.dim).z := by
  simp only [Region.isValid, Bool.and_eq_true, decide_eq_true_eq, and_assoc] at hv
  obtain ⟨hvx, hvy, hvz⟩ := hv
  refine ⟨?_, ?_, ?_, ?_, rfl, rfl, rfl⟩
  · obtain ⟨hx1, hx2⟩ := moveIntoAxis_mem x hvx
    obtain ⟨hy1, hy2⟩ := moveIntoAxis_mem y hvy
    obtain ⟨hz1, hz2⟩ := moveIntoAxis_mem z hvz
    simp only [Region.containsPoint, Region.moveInto, Region.dim, Bool.and_eq_true,
      decide_eq_true_eq, ge_iff_le, Nat.cast_zero, and_assoc]
    omega
  · intro hx
    exact moveIntoAxis_id hx.1 hx.2
  · intro hy
    exact moveIntoAxis_id hy.1 hy.2
  · intro hz
    exact moveIntoAxis_id hz.1 hz.2

/-- Witness for `moveInto_wraps_into_region` at the region and step of
RegionTest.testMoveIntoYOverlap. -/
theorem moveInto_wraps_into_region_witness :
    (Region.mk ⟨0, 0, 0⟩ ⟨10, 10, 10⟩).isValid = true ∧
    (Region.mk ⟨0, 0, 0⟩ ⟨10, 10, 10⟩).containsPoint
      ((Region.mk ⟨0, 0, 0⟩ ⟨10, 10, 10⟩).moveInto 2 20 2) 0 = true :=
  ⟨by decide, (moveInto_wraps_into_region (Region.mk ⟨0, 0, 0⟩ ⟨10, 10, 10⟩) 2 20 2 (by decide)).1⟩

/-- C4 counterexample: on the region `[0,10]^3` of the cited test
RegionTest.testMoveIntoYOverlap, `moveInto(2, 20, 2)` has y-component 9 (the
wrapped value 20 mod 11, exactly what the test asserts), which is neither the
unmodified target coordinate 20 nor the lower boundary 0 nor the upper
boundary 10 — so the result is wrapped, not the claimed clamp-to-boundary. -/
theorem moveInto_clamp_claim_refuted :
    ((Region.mk ⟨0, 0, 0⟩ ⟨10, 10, 10⟩).moveInto 2 20 2).y = 9 ∧
    ¬ (((Region.mk ⟨0, 0, 0⟩ ⟨10, 10, 10⟩).moveInto 2 20 2).y = 20 ∨
       ((Region.mk ⟨0, 0, 0⟩ ⟨10, 10, 10⟩).moveInto 2 20 2).y = 0 ∨
       ((Region.mk ⟨0, 0, 0⟩ ⟨10, 10, 10⟩).moveInto 2 20 2).y = 10) := by
  decide

/-- C6 (amended): `moveInto` is idempotent — applying it to its own output with
that output as the step yields the same output — whenever on every axis the
region's lower bound is nonnegative and divisible by the region dimension.
Both regions exercised by the cited tests (`[0,10]^3`, and the non-origin
`[10,11]^3` of testMoveIntoYBoundaryNoOriginZero) satisfy this; the property
does not hold for arbitrary regions (see `moveInto_not_idempotent`). -/
theorem moveInto_idempotent_of_aligned (r : Region) (x y z : Int) (hv : r.isValid = true)
    (h0 : 0 ≤ r.lower.x ∧ 0 ≤ r.lower.y ∧ 0 ≤ r.lower.z)
    (hd : (r.dim).x ∣ r.lower.x ∧ (r.dim).y ∣ r.lower.y ∧ (r.dim).z ∣ r.lower.z) :
    r.moveInto (r.moveInto x y z).x (r.moveInto x y z).y (r.moveInto x y z).z =
      r.moveInto x y z := by
  simp only [Region.isValid, Bool.and_eq_true, decide_eq_true_eq, and_assoc] at hv
  simp only [Region.dim] at hd
  simp only [Region.moveInto, Region.dim, IVec3.mk.injEq]
  exact ⟨moveIntoAxis_idem x hv.1 h0.1 hd.1,
         moveIntoAxis_idem y hv.2.1 h0.2.1 hd.2.1,
         moveIntoAxis_idem z hv.2.2 h0.2.2 hd.2.2⟩

/-- Witness for `moveInto_idempotent_of_aligned` at the region and step of
RegionTest.testMoveIntoYBoundaryNoOriginZero (lower corner not the origin). -/
theorem moveInto_idempotent_of_aligned_witness :
    (Region.mk ⟨10, 10, 10⟩ ⟨11, 11, 11⟩).isValid = true ∧
    (Region.mk ⟨10, 10, 10⟩ ⟨11, 11, 11⟩).moveInto
        ((Region.mk ⟨10, 10, 10⟩ ⟨11, 11, 11⟩).moveInto 2 2 2).x
        ((Region.mk ⟨10, 10, 10⟩ ⟨11, 11, 11⟩).moveInto 2 2 2).y
        ((Region.mk ⟨10, 10, 10⟩ ⟨11, 11, 11⟩).moveInto 2 2 2).z =
      (Region.mk ⟨10, 10, 10⟩ ⟨11, 11, 11⟩).moveInto 2 2 2 :=
  ⟨by decide,
   moveInto_idempotent_of_aligned (Region.mk ⟨10, 10, 10⟩ ⟨11, 11, 11⟩) 2 2 2 (by decide)
     (by decide) (by decide)⟩

/-- C6 counterexample: on the region `[1,2]^3` with step `(2,2,2)`, `moveInto`
returns `(1,1,1)` but applying `moveInto` again to that output yields `(2,2,2)`;
the output is not a fixed point, so `moveInto` is not idempotent in general. -/
theorem moveInto_not_idempotent :
    (Region.mk ⟨1, 1, 1⟩ ⟨2, 2, 2⟩).moveInto
        ((Region.mk ⟨1, 1, 1⟩ ⟨2, 2, 2⟩).moveInto 2 2 2).x
        ((Region.mk ⟨1, 1, 1⟩ ⟨2, 2, 2⟩).moveInto 2 2 2).y
        ((Region.mk ⟨1, 1, 1⟩ ⟨2, 2, 2⟩).moveInto 2 2 2).z ≠
      (Region.mk ⟨1, 1, 1⟩ ⟨2, 2, 2⟩).moveInto 2 2 2 := by
  decide

/-- C5 (amended): `containsPoint(p, boundary)` holds iff `p` lies within the
shrunken interval `[lower + boundary, upper - boundary]` inclusive on every
axis (the spec's `[lower - boundary, upper + boundary]` has the offset
direction inverted); in particular, with the default boundary 0, a valid
Region contains its lower and its upper corner and does not contain
`upperCorner + 1`. -/
theorem containsPoint_iff_shrunk_interval (r : Region) (p : IVec3) (b : Nat)
    (hv : r.isValid = true) :
    (r.containsPoint p b = true ↔
      (r.lower.x + b ≤ p.x ∧ p.x ≤ r.upper.x - b) ∧
      (r.lower.y + b ≤ p.y ∧ p.y ≤ r.upper.y - b) ∧
      (r.lower.z + b ≤ p.z ∧ p.z ≤ r.upper.z - b)) ∧
    r.containsPoint r.lower = true ∧
    r.containsPoint r.upper = true ∧
    r.containsPoint ⟨r.upper.x + 1, r.upper.y + 1, r.upper.z + 1⟩ = false := by
  simp only [Region.isValid, Bool.and_eq_true, decide_eq_true_eq, and_assoc] at hv
  refine ⟨?_, ?_, ?_, ?_⟩
  · simp only [Region.containsPoint, Bool.and_eq_true, decide_eq_true_eq, ge_iff_le,
      and_assoc]
    omega
  · simp only [Region.containsPoint, Bool.and_eq_true, decide_eq_true_eq, ge_iff_le,
      Nat.cast_zero, and_assoc]
    omega
  · simp only [Region.containsPoint, Bool.and_eq_true, decide_eq_true_eq, ge_iff_le,
      Nat.cast_zero, and_assoc]
    omega
  · rw [Bool.eq_false_iff]
    simp only [ne_eq, Region.containsPoint, Bool.and_eq_true, decide_eq_true_eq, ge_iff_le,
      Nat.cast_zero, and_assoc]
    omega

/-- Witness for `containsPoint_iff_shrunk_interval` at the region of
RegionTest.testContains. -/
theorem containsPoint_iff_shrunk_interval_witness :
    (Region.mk ⟨0, 0, 0⟩ ⟨15, 15, 15⟩).isValid = true ∧
    (Region.mk ⟨0, 0, 0⟩ ⟨15, 15, 15⟩).containsPoint ⟨0, 0, 0⟩ = true :=
  ⟨by decide,
   (containsPoint_iff_shrunk_interval (Region.mk ⟨0, 0, 0⟩ ⟨15, 15, 15⟩) ⟨0, 0, 0⟩ 0
     (by decide)).2.1⟩

/-- C5 counterexample: on the region `[0,15]^3` of the cited test
RegionTest.testContains with `p = (0,0,0)` and `boundary = 1`, the point lies
inside the claim's interval `[lower - 1, upper + 1]` on every axis, yet
`containsPoint` is false (exactly what the test asserts), so the claimed
equivalence fails. -/
theorem containsPoint_expand_claim_refuted :
    ¬ (((Region.mk ⟨0, 0, 0⟩ ⟨15, 15, 15⟩).containsPoint ⟨0, 0, 0⟩ 1 = true) ↔
       (((0 : Int) - 1 ≤ 0 ∧ (0 : Int) ≤ 15 + 1) ∧
        ((0 : Int) - 1 ≤ 0 ∧ (0 : Int) ≤ 15 + 1) ∧
        ((0 : Int) - 1 ≤ 0 ∧ (0 : Int) ≤ 15 + 1))) := by
  decide

/-- core::RGBA color value: four 8-bit channels, embedded as `Nat`. -/
structure RGBA where
  r : Nat
  g : Nat
  b : Nat
  a : Nat
deriving DecidableEq, Repr

/-- Modelled from the spec: PaletteMaxColors, the fixed capacity of 256 colors
of a Palette (spec sections 3 and 4.3). -/
def PaletteMaxColors : Nat := 256

/-- Modelled from the spec: the PaletteLookup distance metric of spec section
4.3 — squared Euclidean distance over the RGB channels, alpha ignored. -/
def distRGB (c1 c2 : RGBA) : Int :=
  ((c1.r : Int) - c2.r) ^ 2 + ((c1.g : Int) - c2.g) ^ 2 + ((c1.b : Int) - c2.b) ^ 2

/-- Modelled from the spec: the exact-match lookup step of
PaletteLookup::getOrAdd (spec section 4.3) — the index of the first exact
occurrence of the color in the insertion-ordered palette, if any. -/
def findIndexOf (c : RGBA) : List RGBA → Option Nat
  | [] => none
  | p :: ps => if p = c then some 0 else (findIndexOf c ps).map (fun i => i + 1)

/-- Modelled from the spec: the nearest-existing-color search of spec section
4.3 with ties broken by the lowest index; returns the chosen index paired with
its distance to the query color. -/
def closestAux (c : RGBA) : List RGBA → Option (Nat × Int)
  | [] => none
  | p :: ps =>
    match closestAux c ps with
    | none => some (0, distRGB c p)
    | some jd => if distRGB c p ≤ jd.2 then some (0, distRGB c p) else some (jd.1 + 1, jd.2)

/-- Modelled from the spec: PaletteLookup::getOrAdd (spec section 4.3), whose
implementation is not under src/: exact-match lookup first; on a miss, append
the color and return its new index while fewer than 256 colors are registered,
otherwise return the index of the closest existing color (Euclidean RGB
distance, alpha ignored, lowest index on ties).  The palette is the
insertion-ordered color list. -/
def getOrAdd (pal : List RGBA) (c : RGBA) : List RGBA × Nat :=
  match findIndexOf c pal with
  | some i => (pal, i)
  | none =>
    if pal.length < PaletteMaxColors then (pal ++ [c], pal.length)
    else
      match closestAux c pal with
      | some jd => (pal, jd.1)
      | none => (pal, 0)

/-- Modelled from the spec: feeding a whole color sequence through one shared
PaletteLookup starting from an empty palette, as the merge and save paths do
(spec section 4.4); returns the grown palette. -/
def buildPalette (cs : List RGBA) : List RGBA :=
  cs.foldl (fun pal c => (getOrAdd pal c).1) []

/-- FormatPaletteTest::checkNoAlpha (FormatPaletteTest.cpp lines 31-38): true
iff no color of the palette has an alpha channel other than 255. -/
def checkNoAlpha (palette : List RGBA) : Bool :=
  palette.all (fun c => c.a == 255)

/-- Modelled from the spec: loading the palette of an RGB-capable format (spec
sections 4.3 and 8): the distinct colors of the model in first-seen order,
each with a fully opaque alpha channel. -/
def loadRGBPalette (colors : List (Nat × Nat × Nat)) : List RGBA :=
  colors.map (fun t => ⟨t.1, t.2.1, t.2.2, 255⟩)

/-- Modelled from the spec: saving a model loaded from an RGB-capable format
through an indexed format (spec sections 4.3 to 4.5): every color of the model
is fed in first-seen order through one shared PaletteLookup, whose palette
becomes the color table written by the indexed codec. -/
def saveThroughIndexed (srcPalette : List RGBA) : List RGBA :=
  buildPalette srcPalette

/-- Modelled from the spec: the color table an indexed codec writes for a node
palette with the given declared color count (spec sections 4.3, 4.5 and 8):
the declared colors are stored verbatim, in order. -/
def indexedSavePalette (pal : List RGBA) (declaredCount : Nat) : List RGBA :=
  pal.take declaredCount

/-- Modelled from the spec: Format::loadPalette of an indexed codec (spec
section 4.5): recovers exactly the stored color table. -/
def indexedLoadPalette (stored : List RGBA) : List RGBA :=
  stored

/-- Helper: the exact-match lookup misses exactly when the color is absent. -/
theorem findIndexOf_eq_none {c : RGBA} {pal : List RGBA} :
    findIndexOf c pal = none ↔ c ∉ pal := by
  induction pal with
  | nil => simp [findIndexOf]
  | cons p ps ih =>
    by_cases hpc : p = c
    · subst hpc
      simp [findIndexOf]
    · have hcp : ¬ (c = p) := fun h => hpc h.symm
      simp [findIndexOf, hpc, Option.map_eq_none', ih, List.mem_cons, hcp]

/-- Helper: a hit of the exact-match lookup points at the color. -/
theorem findIndexOf_some {c : RGBA} {pal : List RGBA} {i : Nat}
    (h : findIndexOf c pal = some i) : pal[i]? = some c := by
  induction pal generalizing i with
  | nil => simp [findIndexOf] at h
  | cons p ps ih =>
    by_cases hpc : p = c
    · subst hpc
      have h0 : i = 0 := by
        simp [findIndexOf] at h
        omega
      subst h0
      simp
    · simp only [findIndexOf, if_neg hpc, Option.map_eq_some'] at h
      obtain ⟨j, hj, rfl⟩ := h
      simpa using ih hj

/-- Helper: the nearest-color search never fails on a nonempty palette. -/
theorem closestAux_cons (c p : RGBA) (ps : List RGBA) :
    ∃ jd, closestAux c (p :: ps) = some jd := by
  unfold closestAux
  cases closestAux c ps with
  | none => exact ⟨_, rfl⟩
  | some jd =>
    dsimp only
    by_cases hle : distRGB c p ≤ jd.2
    · rw [if_pos hle]
      exact ⟨_, rfl⟩
    · rw [if_neg hle]
      exact ⟨_, rfl⟩

/-- Helper: the nearest-color search returns a valid index whose color attains
the minimum distance, and every strictly smaller index has a strictly larger
distance (the lowest-index tie-break). -/
theorem closestAux_spec {c : RGBA} {pal : List RGBA} {j : Nat} {d : Int}
    (h : closestAux c pal = some (j, d)) :
    j < pal.length ∧
    (∃ cj, pal[j]? = some cj ∧ distRGB c cj = d) ∧
    (∀ (k : Nat) (ck : RGBA), pal[k]? = some ck → d ≤ distRGB c ck) ∧
    (∀ (k : Nat) (ck : RGBA), k < j → pal[k]? = some ck → d < distRGB c ck) := by
  induction pal generalizing j d with
  | nil => simp [closestAux] at h
  | cons p ps ih =>
    rw [closestAux] at h
    cases hps : closestAux c ps with
    | none =>
      rw [hps] at h
      have hnil : ps = [] := by
        cases ps with
        | nil => rfl
        | cons q qs =>
          obtain ⟨jd, hjd⟩ := closestAux_cons c q qs
          rw [hjd] at hps
          cases hps
      subst hnil
      simp only [Option.some.injEq, Prod.mk.injEq] at h
      obtain ⟨rfl, rfl⟩ := h
      refine ⟨by simp, ⟨p, by simp, rfl⟩, ?_, ?_⟩
      · intro k ck hk
        cases k with
        | zero => simp at hk; subst hk; exact le_refl _
        | succ n => simp at hk
      · intro k ck hk
        omega
    | some jd =>
      rw [hps] at h
      dsimp only at h
      obtain ⟨hjlen, ⟨cj, hcj, hcd⟩, hmin, htie⟩ := @ih jd.1 jd.2 (by rw [hps])
      by_cases hle : distRGB c p ≤ jd.2
      · rw [if_pos hle] at h
        simp only [Option.some.injEq, Prod.mk.injEq] at h
        obtain ⟨rfl, rfl⟩ := h
        refine ⟨by simp, ⟨p, by simp, rfl⟩, ?_, ?_⟩
        · intro k ck hk
          cases k with
          | zero => simp at hk; subst hk; exact le_refl _
          | succ n =>
            simp only [List.getElem?_cons_succ] at hk
            exact le_trans hle (hmin n ck hk)
        · intro k ck hkj
          omega
      · rw [if_neg hle] at h
        simp only [Option.some.injEq, Prod.mk.injEq] at h
        obtain ⟨rfl, rfl⟩ := h
        refine ⟨by simpa using hjlen, ⟨cj, by simpa using hcj, hcd⟩, ?_, ?_⟩
        · intro k ck hk
          cases k with
          | zero =>
            simp at hk
            subst hk
            omega
          | succ n =>
            simp only [List.getElem?_cons_succ] at hk
            exact hmin n ck hk
        · intro k ck hkj hk
          cases k with
          | zero =>
            simp at hk
            subst hk
            omega
          | succ n =>
            simp only [List.getElem?_cons_succ] at hk
            exact htie n ck (by omega) hk

/-- Helper: one getOrAdd call never pushes the palette beyond 256 colors. -/
theorem getOrAdd_length_le {pal : List RGBA} (c : RGBA)
    (h : pal.length ≤ PaletteMaxColors) :
    ((getOrAdd pal c).1).length ≤ PaletteMaxColors := by
  unfold getOrAdd
  cases hfi : findIndexOf c pal with
  | some i => simpa using h
  | none =>
    by_cases hlen : pal.length < PaletteMaxColors
    · rw [if_pos hlen]
      simp only [List.length_append, List.length_cons, List.length_nil]
      omega
    · rw [if_neg hlen]
      cases hca : closestAux c pal with
      | none => simpa using h
      | some jd => simpa using h

/-- Helper: the capacity invariant holds for every color sequence. -/
theorem buildPalette_length_le (cs : List RGBA) :
    (buildPalette cs).length ≤ PaletteMaxColors := by
  suffices h : ∀ pal : List RGBA, pal.length ≤ PaletteMaxColors →
      (cs.foldl (fun pal c => (getOrAdd pal c).1) pal).length ≤ PaletteMaxColors by
    exact h [] (by simp [PaletteMaxColors])
  induction cs with
  | nil =>
    intro pal h
    simpa using h
  | cons c cs ih =>
    intro pal h
    rw [List.foldl_cons]
    exact ih _ (getOrAdd_length_le c h)

/-- Helper: feeding pairwise-distinct colors within capacity through a
PaletteLookup reproduces them in order. -/
theorem foldl_getOrAdd_append {cs pal : List RGBA}
    (hnd : (pal ++ cs).Nodup) (hlen : (pal ++ cs).length ≤ PaletteMaxColors) :
    cs.foldl (fun p c => (getOrAdd p c).1) pal = pal ++ cs := by
  induction cs generalizing pal with
  | nil => simp
  | cons c cs ih =>
    have hc : c ∉ pal := by
      rw [List.nodup_append] at hnd
      intro hmem
      exact hnd.2.2 hmem (by simp)
    have hfi : findIndexOf c pal = none := findIndexOf_eq_none.mpr hc
    have hlt : pal.length < PaletteMaxColors := by
      simp only [List.length_append, List.length_cons] at hlen
      omega
    have hstep : (getOrAdd pal c).1 = pal ++ [c] := by
      unfold getOrAdd
      rw [hfi, if_pos hlt]
    rw [List.foldl_cons, hstep]
    have hassoc : pal ++ c :: cs = (pal ++ [c]) ++ cs := by simp
    rw [@ih (pal ++ [c]) (by rw [← hassoc]; exact hnd) (by rw [← hassoc]; exact hlen),
      hassoc]

/-- C2: PaletteLookup never exceeds 256 registered colors for any input
sequence; each getOrAdd call does an exact-match lookup first (a hit returns
the registered index and leaves the palette untouched), on a miss appends the
color and returns its new index while fewer than 256 colors are registered,
and at capacity returns the index of the nearest existing color under the
Euclidean RGB distance with alpha ignored and ties broken by the lowest
index — it never creates a 257th slot and never reports an error (the
operation is total). -/
theorem getOrAdd_capacity_and_behavior (pal : List RGBA) (c : RGBA)
    (hpal : pal.length ≤ PaletteMaxColors) :
    (∀ cs : List RGBA, (buildPalette cs).length ≤ PaletteMaxColors) ∧
    ((getOrAdd pal c).1).length ≤ PaletteMaxColors ∧
    (∀ i : Nat, findIndexOf c pal = some i → getOrAdd pal c = (pal, i) ∧ pal[i]? = some c) ∧
    (c ∉ pal → pal.length < PaletteMaxColors → getOrAdd pal c = (pal ++ [c], pal.length)) ∧
    (c ∉ pal → pal.length = PaletteMaxColors →
      (getOrAdd pal c).1 = pal ∧
      ∃ cj, pal[(getOrAdd pal c).2]? = some cj ∧
        (∀ (k : Nat) (ck : RGBA), pal[k]? = some ck → distRGB c cj ≤ distRGB c ck) ∧
        (∀ (k : Nat) (ck : RGBA), k < (getOrAdd pal c).2 → pal[k]? = some ck →
          distRGB c cj < distRGB c ck)) := by
  refine ⟨buildPalette_length_le, getOrAdd_length_le c hpal, ?_, ?_, ?_⟩
  · intro i hfi
    refine ⟨?_, findIndexOf_some hfi⟩
    unfold getOrAdd
    rw [hfi]
  · intro hc hlt
    unfold getOrAdd
    rw [findIndexOf_eq_none.mpr hc, if_pos hlt]
  · intro hc hcap
    cases pal with
    | nil => simp [PaletteMaxColors] at hcap
    | cons p ps =>
      obtain ⟨jd, hca⟩ := closestAux_cons c p ps
      have hres : getOrAdd (p :: ps) c = (p :: ps, jd.1) := by
        unfold getOrAdd
        rw [findIndexOf_eq_none.mpr hc, if_neg (by omega), hca]
      obtain ⟨hjlen, ⟨cj, hcj, hcd⟩, hmin, htie⟩ :=
        @closestAux_spec c (p :: ps) jd.1 jd.2 (by simpa using hca)
      rw [hres]
      refine ⟨rfl, cj, hcj, ?_, ?_⟩
      · intro k ck hk
        rw [hcd]
        exact hmin k ck hk
      · intro k ck hkj hk
        rw [hcd]
        exact htie k ck hkj hk

/-- Witness for `getOrAdd_capacity_and_behavior`: a concrete miss below
capacity appends the new color at index 1. -/
theorem getOrAdd_capacity_and_behavior_witness :
    ([⟨0, 0, 0, 255⟩] : List RGBA).length ≤ PaletteMaxColors ∧
    getOrAdd [⟨0, 0, 0, 255⟩] ⟨1, 2, 3, 255⟩ = ([⟨0, 0, 0, 255⟩, ⟨1, 2, 3, 255⟩], 1) :=
  ⟨by decide,
   (getOrAdd_capacity_and_behavior [⟨0, 0, 0, 255⟩] ⟨1, 2, 3, 255⟩ (by decide)).2.2.2.1
     (by decide) (by decide)⟩

/-- C1: a model loaded from an RGB-capable source format with at most 256
distinct colors, saved through an indexed format (one shared PaletteLookup fed
in first-seen order) and whose palette is loaded back, keeps its first N
colors at the same indices in the same order; and every color loaded from the
RGB source is fully opaque (`checkNoAlpha` of the test harness holds). -/
theorem rgb_to_indexed_palette_roundtrip (colors : List (Nat × Nat × Nat))
    (hnd : (loadRGBPalette colors).Nodup) (hlen : colors.length ≤ PaletteMaxColors) :
    (∀ i : Nat, i < colors.length →
      (indexedLoadPalette (saveThroughIndexed (loadRGBPalette colors)))[i]? =
        (loadRGBPalette colors)[i]?) ∧
    checkNoAlpha (loadRGBPalette colors) = true := by
  constructor
  · intro i hi
    have hsave : saveThroughIndexed (loadRGBPalette colors) = loadRGBPalette colors := by
      unfold saveThroughIndexed buildPalette
      exact @foldl_getOrAdd_append (loadRGBPalette colors) [] (by simpa using hnd)
        (by simpa [loadRGBPalette] using hlen)
    rw [indexedLoadPalette, hsave]
  · simp only [checkNoAlpha, loadRGBPalette, List.all_eq_true, List.mem_map]
    rintro x ⟨t, hmem, rfl⟩
    rfl

/-- Witness for `rgb_to_indexed_palette_roundtrip` on a concrete two-color RGB
model. -/
theorem rgb_to_indexed_palette_roundtrip_witness :
    (loadRGBPalette [(1, 2, 3), (4, 5, 6)]).Nodup ∧
    (indexedLoadPalette (saveThroughIndexed (loadRGBPalette [(1, 2, 3), (4, 5, 6)])))[0]? =
      (loadRGBPalette [(1, 2, 3), (4, 5, 6)])[0]? ∧
    checkNoAlpha (loadRGBPalette [(1, 2, 3), (4, 5, 6)]) = true :=
  ⟨by decide,
   (rgb_to_indexed_palette_roundtrip [(1, 2, 3), (4, 5, 6)] (by decide) (by decide)).1 0
     (by decide),
   (rgb_to_indexed_palette_roundtrip [(1, 2, 3), (4, 5, 6)] (by decide) (by decide)).2⟩

/-- C7: converting one indexed format to another with the same declared color
count preserves every palette color at its original index exactly: below the
declared count, the color table loaded back from the written output equals the
source palette entry. -/
theorem indexed_to_indexed_palette_roundtrip (pal : List RGBA) (count : Nat) (i : Nat)
    (hi : i < count) :
    (indexedLoadPalette (indexedSavePalette pal count))[i]? = pal[i]? := by
  simp [indexedLoadPalette, indexedSavePalette, List.getElem?_take, hi]

/-- Witness for `indexed_to_indexed_palette_roundtrip` on a concrete two-color
palette. -/
theorem indexed_to_indexed_palette_roundtrip_witness :
    0 < 2 ∧
    (indexedLoadPalette (indexedSavePalette [⟨1, 1, 1, 255⟩, ⟨2, 2, 2, 255⟩] 2))[0]? =
      ([⟨1, 1, 1, 255⟩, ⟨2, 2, 2, 255⟩] : List RGBA)[0]? :=
  ⟨by decide, indexed_to_indexed_palette_roundtrip [⟨1, 1, 1, 255⟩, ⟨2, 2, 2, 255⟩] 2 0 (by decide)⟩

/-- Byte-string comparison used by the zip index sort: lexicographic strict
order on byte sequences, as core::String operator< compares entry names. -/
def nameLt : List Nat → List Nat → Bool
  | [], [] => false
  | [], _ :: _ => true
  | _ :: _, [] => false
  | a :: as, b :: bs => if a < b then true else if b < a then false else nameLt as bs

/-- Entry type field of io::FilesystemEntry. -/
inductive FSEntryType where
  | file
  | dir
deriving DecidableEq, Repr

/-- io::FilesystemEntry as filled by ZipArchive::open: name, type, uncompressed
size and modification time.  Names are byte strings. -/
structure FilesystemEntry where
  name : List Nat
  type : FSEntryType
  size : Nat
  mtime : Nat
deriving DecidableEq, Repr

/-- The stat record of one zip member (mz_zip_archive_file_stat), restricted to
the fields ZipArchive::open reads: filename, uncompressed size, time. -/
structure ZipFileStat where
  m_filename : List Nat
  m_uncomp_size : Nat
  m_time : Nat
deriving DecidableEq, Repr

/-- One central-directory entry of a zip container as seen through miniz:
whether it is a directory, whether it is encrypted, and its stat record
(`none` when mz_zip_reader_file_stat fails). -/
structure ZipEntryRaw where
  isDirectory : Bool
  isEncrypted : Bool
  stat : Option ZipFileStat
deriving DecidableEq, Repr

/-- The FilesystemEntry built for a surviving zip member (ZipArchive.cpp lines
95-100): name, file type, uncompressed size and mtime from the stat record. -/
def zipStatEntry (s : ZipFileStat) : FilesystemEntry :=
  { name := s.m_filename, type := FSEntryType.file, size := s.m_uncomp_size,
    mtime := s.m_time }

/-- The indexing loop of ZipArchive::open (ZipArchive.cpp lines 85-101):
directory entries, encrypted entries and entries whose stat record cannot be
read are skipped; every remaining entry is appended as a file entry. -/
def zipCollect : List ZipEntryRaw → List FilesystemEntry
  | [] => []
  | e :: es =>
    if e.isDirectory then zipCollect es
    else if e.isEncrypted then zipCollect es
    else
      match e.stat with
      | none => zipCollect es
      | some s => zipStatEntry s :: zipCollect es

/-- Insertion step of the name sort of ZipArchive::open (ZipArchive.cpp line
102, comparator `a.name < b.name`). -/
def insertByName (e : FilesystemEntry) : List FilesystemEntry → List FilesystemEntry
  | [] => [e]
  | f :: fs => if nameLt e.name f.name then e :: f :: fs else f :: insertByName e fs

/-- The `_files.sort` call of ZipArchive::open (ZipArchive.cpp line 102). -/
def sortByName (entries : List FilesystemEntry) : List FilesystemEntry :=
  entries.foldr insertByName []

/-- ZipArchive::open member-index construction (ZipArchive.cpp lines 63-105):
one pass over the container's central directory building the file entries,
then a sort by name.  (`open` is a Lean keyword, hence `openIndex`.) -/
def ZipArchive.openIndex (entries : List ZipEntryRaw) : List FilesystemEntry :=
  sortByName (zipCollect entries)

/-- Helper: lexicographic byte comparison is asymmetric. -/
theorem nameLt_asymm {a b : List Nat} (h : nameLt a b = true) : nameLt b a = false := by
  induction a generalizing b with
  | nil =>
    cases b with
    | nil => simp [nameLt] at h
    | cons y ys => simp [nameLt]
  | cons x xs ih =>
    cases b with
    | nil => simp [nameLt] at h
    | cons y ys =>
      rw [nameLt] at h ⊢
      by_cases hxy : x < y
      · rw [if_neg (by omega), if_pos hxy]
      · rw [if_neg hxy] at h
        by_cases hyx : y < x
        · rw [if_pos hyx] at h
          cases h
        · rw [if_neg hyx] at h
          rw [if_neg hyx, if_neg hxy]
          exact ih h

/-- Helper: lexicographic byte comparison is transitive. -/
theorem nameLt_trans {a b c : List Nat} (hab : nameLt a b = true)
    (hbc : nameLt b c = true) : nameLt a c = true := by
  induction a generalizing b c with
  | nil =>
    cases b with
    | nil => simp [nameLt] at hab
    | cons y ys =>
      cases c with
      | nil => simp [nameLt] at hbc
      | cons z zs => simp [nameLt]
  | cons x xs ih =>
    cases b with
    | nil => simp [nameLt] at hab
    | cons y ys =>
      cases c with
      | nil => simp [nameLt] at hbc
      | cons z zs =>
        rw [nameLt] at hab hbc ⊢
        by_cases hxy : x < y
        · have hyz : y < z ∨ (¬ z < y ∧ ¬ y < z) := by
            by_cases h1 : y < z
            · exact Or.inl h1
            · rw [if_neg h1] at hbc
              by_cases h2 : z < y
              · rw [if_pos h2] at hbc
                cases hbc
              · exact Or.inr ⟨h2, h1⟩
          cases hyz with
          | inl h1 => rw [if_pos (by omega)]
          | inr h1 => rw [if_pos (by omega)]
        · rw [if_neg hxy] at hab
          by_cases hyx : y < x
          · rw [if_pos hyx] at hab
            cases hab
          · rw [if_neg hyx] at hab
            have hxey : x = y := by omega
            subst hxey
            by_cases hxz : x < z
            · rw [if_pos hxz]
            · rw [if_neg hxz] at hbc ⊢
              by_cases hzx : z < x
              · rw [if_pos hzx] at hbc
                cases hbc
              · rw [if_neg hzx] at hbc ⊢
                exact ih hab hbc

/-- Helper: membership in the insertion step. -/
theorem mem_insertByName {x e : FilesystemEntry} {l : List FilesystemEntry} :
    x ∈ insertByName e l ↔ x = e ∨ x ∈ l := by
  induction l with
  | nil => simp [insertByName]
  | cons f fs ih =>
    rw [insertByName]
    by_cases h : nameLt e.name f.name
    · rw [if_pos h]
      simp only [List.mem_cons]
    · rw [if_neg h]
      simp only [List.mem_cons, ih]
      tauto

/-- Helper: the insertion step is a permutation of pushing in front. -/
theorem insertByName_perm (e : FilesystemEntry) (l : List FilesystemEntry) :
    (insertByName e l).Perm (e :: l) := by
  induction l with
  | nil => simp [insertByName]
  | cons f fs ih =>
    rw [insertByName]
    by_cases h : nameLt e.name f.name
    · rw [if_pos h]
    · rw [if_neg h]
      exact (ih.cons f).trans (List.Perm.swap e f fs)

/-- Helper: the whole sort permutes its input. -/
theorem sortByName_perm (l : List FilesystemEntry) : (sortByName l).Perm l := by
  induction l with
  | nil => simp [sortByName]
  | cons f fs ih =>
    have h1 : sortByName (f :: fs) = insertByName f (sortByName fs) := rfl
    rw [h1]
    exact (insertByName_perm f (sortByName fs)).trans (ih.cons f)

/-- Helper: the insertion step preserves sortedness under the comparator of
ZipArchive::open (`a.name < b.name`): no later entry name is below an earlier
one. -/
theorem pairwise_insertByName {e : FilesystemEntry} {l : List FilesystemEntry}
    (h : List.Pairwise (fun a b => nameLt b.name a.name = false) l) :
    List.Pairwise (fun a b => nameLt b.name a.name = false) (insertByName e l) := by
  induction l with
  | nil => simp [insertByName]
  | cons f fs ih =>
    rw [insertByName]
    rw [List.pairwise_cons] at h
    by_cases hef : nameLt e.name f.name
    · rw [if_pos hef]
      rw [List.pairwise_cons]
      refine ⟨?_, List.pairwise_cons.mpr h⟩
      intro x hx
      rcases List.mem_cons.mp hx with hxf | hxfs
      · subst hxf
        exact nameLt_asymm hef
      · by_cases hxe : nameLt x.name e.name
        · have hxf' : nameLt x.name f.name = true := nameLt_trans hxe hef
          rw [h.1 x hxfs] at hxf'
          cases hxf'
        · simpa using hxe
    · rw [if_neg hef]
      rw [List.pairwise_cons]
      refine ⟨?_, ih h.2⟩
      intro x hx
      rcases mem_insertByName.mp hx with hxe | hxfs
      · subst hxe
        simpa using hef
      · exact h.1 x hxfs

/-- Helper: sorting yields a list sorted under the comparator of
ZipArchive::open. -/
theorem sortByName_pairwise (l : List FilesystemEntry) :
    List.Pairwise (fun a b => nameLt b.name a.name = false) (sortByName l) := by
  induction l with
  | nil => simp [sortByName]
  | cons f fs ih => exact pairwise_insertByName ih

/-- Helper: membership in the collected (unsorted) index. -/
theorem mem_zipCollect {f : FilesystemEntry} {entries : List ZipEntryRaw} :
    f ∈ zipCollect entries ↔
      ∃ e ∈ entries, e.isDirectory = false ∧ e.isEncrypted = false ∧
        ∃ s, e.stat = some s ∧ f = zipStatEntry s := by
  induction entries with
  | nil => simp [zipCollect]
  | cons e es ih =>
    rw [zipCollect]
    by_cases hdir : e.isDirectory
    · rw [if_pos hdir]
      simp only [ih, List.mem_cons]
      constructor
      · rintro ⟨e', he', hprops⟩
        exact ⟨e', Or.inr he', hprops⟩
      · rintro ⟨e', he' | he', hprops⟩
        · subst he'
          rw [hdir] at hprops
          cases hprops.1
        · exact ⟨e', he', hprops⟩
    · rw [if_neg hdir]
      by_cases henc : e.isEncrypted
      · rw [if_pos henc]
        simp only [ih, List.mem_cons]
        constructor
        · rintro ⟨e', he', hprops⟩
          exact ⟨e', Or.inr he', hprops⟩
        · rintro ⟨e', he' | he', hprops⟩
          · subst he'
            rw [henc] at hprops
            cases hprops.2.1
          · exact ⟨e', he', hprops⟩
      · rw [if_neg henc]
        cases hstat : e.stat with
        | none =>
          simp only [ih, List.mem_cons]
          constructor
          · rintro ⟨e', he', hprops⟩
            exact ⟨e', Or.inr he', hprops⟩
          · rintro ⟨e', he' | he', hprops⟩
            · subst he'
              obtain ⟨s, hs, hfs⟩ := hprops.2.2
              rw [hstat] at hs
              cases hs
            · exact ⟨e', he', hprops⟩
        | some s =>
          simp only [List.mem_cons, ih]
          constructor
          · rintro (hfe | ⟨e', he', hprops⟩)
            · exact ⟨e, by simp, by simpa using hdir, by simpa using henc, s, hstat, hfe⟩
            · exact ⟨e', Or.inr he', hprops⟩
          · rintro ⟨e', he' | he', hprops⟩
            · subst he'
              obtain ⟨s', hs', hfs'⟩ := hprops.2.2
              rw [hstat] at hs'
              cases hs'
              exact Or.inl hfs'
            · exact Or.inr ⟨e', he', hprops⟩

/-- C9: ZipArchive::open builds the member index in one pass over the
container's central directory: every directory entry, encrypted entry, and
entry whose stat record cannot be read is skipped; an entry belongs to the
index exactly when it survives those checks, in which case it carries the stat
record's name, uncompressed size and modification time as a file-type entry;
the index is a permutation of the collected entries and is sorted by name, so
listing is a deterministic function of the container's entries. -/
theorem zip_openIndex_spec (entries : List ZipEntryRaw) :
    List.Pairwise (fun a b => nameLt b.name a.name = false)
      (ZipArchive.openIndex entries) ∧
    (ZipArchive.openIndex entries).Perm (zipCollect entries) ∧
    (∀ f : FilesystemEntry, f ∈ ZipArchive.openIndex entries ↔
      ∃ e ∈ entries, e.isDirectory = false ∧ e.isEncrypted = false ∧
        ∃ s, e.stat = some s ∧ f = zipStatEntry s) ∧
    (∀ f ∈ ZipArchive.openIndex entries, f.type = FSEntryType.file) := by
  have hperm : (ZipArchive.openIndex entries).Perm (zipCollect entries) :=
    sortByName_perm (zipCollect entries)
  have hmem : ∀ f : FilesystemEntry, f ∈ ZipArchive.openIndex entries ↔
      ∃ e ∈ entries, e.isDirectory = false ∧ e.isEncrypted = false ∧
        ∃ s, e.stat = some s ∧ f = zipStatEntry s := by
    intro f
    rw [hperm.mem_iff]
    exact mem_zipCollect
  refine ⟨sortByName_pairwise (zipCollect entries), hperm, hmem, ?_⟩
  intro f hf
  obtain ⟨e, he, hdir, henc, s, hs, rfl⟩ := (hmem f).mp hf
  rfl

/-- Witness for `zip_openIndex_spec`: a concrete container with one plain file
entry, one directory entry and one encrypted entry indexes exactly the plain
file. -/
theorem zip_openIndex_spec_witness :
    zipStatEntry ⟨[97], 4, 5⟩ ∈
      ZipArchive.openIndex
        [⟨true, false, some ⟨[98], 1, 1⟩⟩, ⟨false, true, some ⟨[99], 2, 2⟩⟩,
         ⟨false, false, some ⟨[97], 4, 5⟩⟩] :=
  ((zip_openIndex_spec
      [⟨true, false, some ⟨[98], 1, 1⟩⟩, ⟨false, true, some ⟨[99], 2, 2⟩⟩,
       ⟨false, false, some ⟨[97], 4, 5⟩⟩]).2.2.1 (zipStatEntry ⟨[97], 4, 5⟩)).mpr
    ⟨⟨false, false, some ⟨[97], 4, 5⟩⟩, by decide, rfl, rfl, ⟨[97], 4, 5⟩, rfl, rfl⟩

/-- MaxHeightmapWidth (VoxConvert.cpp line 45). -/
def MaxHeightmapWidth : Int := 4096

/-- MaxHeightmapHeight (VoxConvert.cpp line 46). -/
def MaxHeightmapHeight : Int := 4096

/-- The heightmap dimension guard of VoxConvert::handleInputFile
(VoxConvert.cpp line 421): heightmap creation is skipped (and the input
rejected) when `image->width() > MaxHeightmapWidth` or
`image->height() >= MaxHeightmapHeight`. -/
def skipHeightmap (width height : Int) : Bool :=
  width > MaxHeightmapWidth || height ≥ MaxHeightmapHeight

/-- C10: the heightmap import guard rejects an image exactly when its width
exceeds 4096 or its height is at least 4096; the two dimensions are checked
asymmetrically — a 4096-wide image (with small height) is accepted while a
4096-high image is rejected. -/
theorem skipHeightmap_spec (w h : Int) :
    (skipHeightmap w h = true ↔ (w > 4096 ∨ h ≥ 4096)) ∧
    skipHeightmap 4096 4095 = false ∧
    skipHeightmap 4097 0 = true ∧
    skipHeightmap 0 4096 = true := by
  refine ⟨?_, by decide, by decide, by decide⟩
  simp [skipHeightmap, MaxHeightmapWidth, MaxHeightmapHeight]

/-- Witness for `skipHeightmap_spec`: the asymmetric acceptance at exactly
4096. -/
theorem skipHeightmap_spec_witness :
    skipHeightmap 4096 4095 = false ∧ skipHeightmap 0 4096 = true :=
  ⟨(skipHeightmap_spec 0 0).2.1, (skipHeightmap_spec 0 0).2.2.2⟩

/-- Node types of scenegraph::SceneGraphNode (spec section 3). -/
inductive NodeType where
  | Root
  | Group
  | Model
  | Camera
deriving DecidableEq, Repr

/-- A scene-graph node restricted to what the merge path inspects: its type
and, for model nodes, the region of its volume (`none` when the node owns no
volume). -/
structure SceneNode where
  ntype : NodeType
  region : Option Region
deriving DecidableEq, Repr

/-- Componentwise union of two regions, as the merged volume's enclosing
region accumulates (spec section 4.4). -/
def regionUnion (a b : Region) : Region :=
  ⟨⟨min a.lower.x b.lower.x, min a.lower.y b.lower.y, min a.lower.z b.lower.z⟩,
   ⟨max a.upper.x b.upper.x, max a.upper.y b.upper.y, max a.upper.z b.upper.z⟩⟩

/-- Modelled from the spec: SceneGraph::merge() (spec section 4.4), whose
implementation is not under src/: it computes the union Region of every Model
node with a valid region and allocates the merged volume over it; when there
is no such node it returns a null volume (`none`), not a zero-sized one.  Only
the merged volume's region matters to the driver checks modelled here. -/
def sceneMerge (nodes : List SceneNode) : Option Region :=
  let regions := nodes.filterMap fun n =>
    match n.ntype, n.region with
    | NodeType.Model, some r => if r.isValid then some r else none
    | _, _ => none
  match regions with
  | [] => none
  | r :: rs => some (rs.foldl regionUnion r)

/-- Outcome of the --merge branch of VoxConvert::onInit (VoxConvert.cpp lines
326-339): when the merged volume is null the branch logs an error and returns
InitFailure; otherwise the scene graph is rebuilt around the merged volume. -/
inductive MergeBranchResult where
  | initFailure
  | rebuilt (merged : Region)
deriving DecidableEq, Repr

/-- The --merge branch of VoxConvert::onInit (VoxConvert.cpp lines 326-339),
translated over the merge result: `merged.first == nullptr` is checked before
the volume is used. -/
def mergeBranch (merged : Option Region) : MergeBranchResult :=
  match merged with
  | none => MergeBranchResult.initFailure
  | some r => MergeBranchResult.rebuilt r

/-- What VoxConvert::split (VoxConvert.cpp lines 524-537) does with the merge
result: the volume it hands to voxelutil::splitVolume and whether the function
signals any error.  The source performs no null check and has no error path
(it returns void), so the merge result is passed through unconditionally. -/
structure SplitCall where
  passedToSplitVolume : Option Region
  erroredOut : Bool
deriving DecidableEq, Repr

/-- The --split path of VoxConvert (VoxConvert.cpp lines 524-537): merge, then
pass `merged.first` straight to voxelutil::splitVolume and delete it — with no
null check and no error return. -/
def splitStep (merged : Option Region) : SplitCall :=
  { passedToSplitVolume := merged, erroredOut := false }

/-- C3 evaluated at the failing input: a scene graph holding only a Group node
(no Model nodes with valid regions).  merge() yields the null volume; the
--merge branch of VoxConvert::onInit does treat that as a hard error
(InitFailure), but VoxConvert::split passes the null merged volume straight to
voxelutil::splitVolume without erroring — the claim that both paths check the
merged volume for null before passing it on is false for the split path. -/
theorem split_null_merge_eval :
    sceneMerge [⟨NodeType.Group, none⟩] = none ∧
    mergeBranch (sceneMerge [⟨NodeType.Group, none⟩]) = MergeBranchResult.initFailure ∧
    (splitStep (sceneMerge [⟨NodeType.Group, none⟩])).passedToSplitVolume = none ∧
    (splitStep (sceneMerge [⟨NodeType.Group, none⟩])).erroredOut = false := by
  decide

/-- Real 3d vector for the corner arithmetic of Region::rotate (the C++ code
computes with glm float vectors; the embedding uses exact reals, and every
quantity in the claim is far from a rounding boundary). -/
structure RVec3 where
  x : Real
  y : Real
  z : Real

/-- Cosine of 45 degrees, which equals its sine. -/
noncomputable def cos45 : Real := Real.sqrt 2 / 2

/-- glm::eulerAngleXYZ(0, yaw, 0) applied to a vector, at yaw = 45 degrees:
a rotation about the Y axis with cosine and sine both cos45. -/
noncomputable def rotY45 (v : RVec3) : RVec3 :=
  ⟨cos45 * v.x + cos45 * v.z, v.y, -cos45 * v.x + cos45 * v.z⟩

/-- glm::round: rounding half away from zero, to an integer. -/
noncomputable def roundAway (x : Real) : Int :=
  if x < 0 then -⌊-x + 1 / 2⌋ else ⌊x + 1 / 2⌋

/-- Modelled from the spec: voxel::Region::rotate (spec section 4.1) for a
45-degree rotation about the Y axis, whose implementation is not under src/:
transform the 8 corners of the voxel-exact box spanning lower..upper+1 about
the pivot, take the componentwise minimum and maximum over the transformed
corners, and build the Region [round(mins), round(maxs) - 1].  The corner set
(upper corner extended by one voxel) and the rounding are fixed by the
asymmetric extents asserted by RegionTest.testRotateAxisY45. -/
noncomputable def Region.rotateY45 (r : Region) (pivot : RVec3) : Region :=
  let lx : Real := r.lower.x
  let ly : Real := r.lower.y
  let lz : Real := r.lower.z
  let hx : Real := (r.upper.x : Real) + 1
  let hy : Real := (r.upper.y : Real) + 1
  let hz : Real := (r.upper.z : Real) + 1
  let tf : RVec3 → RVec3 := fun v =>
    let w := rotY45 ⟨v.x - pivot.x, v.y - pivot.y, v.z - pivot.z⟩
    ⟨w.x + pivot.x, w.y + pivot.y, w.z + pivot.z⟩
  let c0 := tf ⟨lx, ly, lz⟩
  let c1 := tf ⟨hx, ly, lz⟩
  let c2 := tf ⟨lx, hy, lz⟩
  let c3 := tf ⟨hx, hy, lz⟩
  let c4 := tf ⟨lx, ly, hz⟩
  let c5 := tf ⟨hx, ly, hz⟩
  let c6 := tf ⟨lx, hy, hz⟩
  let c7 := tf ⟨hx, hy, hz⟩
  ⟨⟨roundAway (min (min (min c0.x c1.x) (min c2.x c3.x)) (min (min c4.x c5.x) (min c6.x c7.x))),
    roundAway (min (min (min c0.y c1.y) (min c2.y c3.y)) (min (min c4.y c5.y) (min c6.y c7.y))),
    roundAway (min (min (min c0.z c1.z) (min c2.z c3.z)) (min (min c4.z c5.z) (min c6.z c7.z)))⟩,
   ⟨roundAway (max (max (max c0.x c1.x) (max c2.x c3.x)) (max (max c4.x c5.x) (max c6.x c7.x))) - 1,
    roundAway (max (max (max c0.y c1.y) (max c2.y c3.y)) (max (max c4.y c5.y) (max c6.y c7.y))) - 1,
    roundAway (max (max (max c0.z c1.z) (max c2.z c3.z)) (max (max c4.z c5.z) (max c6.z c7.z))) - 1⟩⟩

/-- Helper: value of roundAway on a negative input from floor bounds. -/
theorem roundAway_eq_neg {x : Real} {n : Int} (hx : x < 0) (h1 : (n : Real) ≤ -x + 1 / 2)
    (h2 : -x + 1 / 2 < (n : Real) + 1) : roundAway x = -n := by
  unfold roundAway
  rw [if_pos hx]
  have : ⌊-x + 1 / 2⌋ = n := Int.floor_eq_iff.mpr ⟨h1, by linarith⟩
  rw [this]

/-- Helper: value of roundAway on a nonnegative input from floor bounds. -/
theorem roundAway_eq_nonneg {x : Real} {n : Int} (hx : 0 ≤ x) (h1 : (n : Real) ≤ x + 1 / 2)
    (h2 : x + 1 / 2 < (n : Real) + 1) : roundAway x = n := by
  unfold roundAway
  rw [if_neg (not_lt.mpr hx)]
  exact Int.floor_eq_iff.mpr ⟨h1, by linarith⟩

set_option maxHeartbeats 1000000 in
/-- C8: rotating the cubic Region `[-10,10]^3` by 45 degrees about the Y axis
through the pivot at its center (the origin) leaves the Y extent unchanged at
`[-10,10]` and yields X in `[-14,15]` and Z in `[-15,14]` — the integer
bounding box of the 8 rotated corners as the rotate model computes it, exactly
the extents asserted by RegionTest.testRotateAxisY45. -/
theorem rotateY45_cube_regression :
    (Region.mk ⟨-10, -10, -10⟩ ⟨10, 10, 10⟩).rotateY45 ⟨0, 0, 0⟩ =
      Region.mk ⟨-14, -10, -15⟩ ⟨15, 10, 14⟩ := by
  have hs1 : (1.41 : Real) < Real.sqrt 2 := by
    nlinarith [Real.sq_sqrt (by norm_num : (0:Real) ≤ 2), Real.sqrt_nonneg 2]
  have hs2 : Real.sqrt 2 < (1.42 : Real) := by
    nlinarith [Real.sq_sqrt (by norm_num : (0:Real) ≤ 2), Real.sqrt_nonneg 2]
  have hcl : (0.705 : Real) < cos45 := by
    unfold cos45
    linarith
  have hcu : cos45 < (0.71 : Real) := by
    unfold cos45
    linarith
  simp only [Region.rotateY45, rotY45, Region.mk.injEq, IVec3.mk.injEq]
  norm_num
  refine ⟨⟨?_, ?_, ?_⟩, ?_, ?_, ?_⟩
  · have hA : ((-(cos45 * 10) + -(cos45 * 10)) ⊓ (cos45 * 11 + -(cos45 * 10)) ⊓
        ((-(cos45 * 10) + cos45 * 11) ⊓ (cos45 * 11 + cos45 * 11))) ≤
        (-(cos45 * 10) + -(cos45 * 10)) := le_trans (min_le_left _ _) (min_le_left _ _)
    have hlow : (-29 / 2 : Real) < ((-(cos45 * 10) + -(cos45 * 10)) ⊓ (cos45 * 11 + -(cos45 * 10)) ⊓
        ((-(cos45 * 10) + cos45 * 11) ⊓ (cos45 * 11 + cos45 * 11))) :=
      lt_min (lt_min (by linarith) (by linarith)) (lt_min (by linarith) (by linarith))
    refine roundAway_eq_neg (by linarith) (by push_cast; linarith) (by push_cast; linarith)
  · exact roundAway_eq_neg (by norm_num) (by push_cast; norm_num) (by push_cast; norm_num)
  · have hB : ((0 : Real) ⊓ (-(cos45 * 11) + -(cos45 * 10)) ⊓ ((cos45 * 10 + cos45 * 11) ⊓ 0)) ≤
        (-(cos45 * 11) + -(cos45 * 10)) := le_trans (min_le_left _ _) (min_le_right _ _)
    have hlow : (-31 / 2 : Real) < ((0 : Real) ⊓ (-(cos45 * 11) + -(cos45 * 10)) ⊓
        ((cos45 * 10 + cos45 * 11) ⊓ 0)) :=
      lt_min (lt_min (by linarith) (by linarith)) (lt_min (by linarith) (by linarith))
    refine roundAway_eq_neg (by linarith) (by push_cast; linarith) (by push_cast; linarith)
  · have hD : (cos45 * 11 + cos45 * 11) ≤
        ((-(cos45 * 10) + -(cos45 * 10)) ⊔ (cos45 * 11 + -(cos45 * 10)) ⊔
          ((-(cos45 * 10) + cos45 * 11) ⊔ (cos45 * 11 + cos45 * 11))) :=
      le_trans (le_max_right _ _) (le_max_right _ _)
    have hup : ((-(cos45 * 10) + -(cos45 * 10)) ⊔ (cos45 * 11 + -(cos45 * 10)) ⊔
        ((-(cos45 * 10) + cos45 * 11) ⊔ (cos45 * 11 + cos45 * 11))) < (33 / 2 : Real) :=
      max_lt (max_lt (by linarith) (by linarith)) (max_lt (by linarith) (by linarith))
    have h16 : roundAway ((-(cos45 * 10) + -(cos45 * 10)) ⊔ (cos45 * 11 + -(cos45 * 10)) ⊔
        ((-(cos45 * 10) + cos45 * 11) ⊔ (cos45 * 11 + cos45 * 11))) = 16 :=
      roundAway_eq_nonneg (by linarith) (by push_cast; linarith) (by push_cast; linarith)
    rw [h16]
    decide
  · have h11 : roundAway (11 : Real) = 11 :=
      roundAway_eq_nonneg (by norm_num) (by push_cast; norm_num) (by push_cast; norm_num)
    rw [h11]
    decide
  · have hC : (cos45 * 10 + cos45 * 11) ≤
        ((0 : Real) ⊔ (-(cos45 * 11) + -(cos45 * 10)) ⊔ ((cos45 * 10 + cos45 * 11) ⊔ 0)) :=
      le_trans (le_max_left _ _) (le_max_right _ _)
    have hup : ((0 : Real) ⊔ (-(cos45 * 11) + -(cos45 * 10)) ⊔ ((cos45 * 10 + cos45 * 11) ⊔ 0)) <
        (31 / 2 : Real) :=
      max_lt (max_lt (by linarith) (by linarith)) (max_lt (by linarith) (by linarith))
    have h15 : roundAway ((0 : Real) ⊔ (-(cos45 * 11) + -(cos45 * 10)) ⊔
        ((cos45 * 10 + cos45 * 11) ⊔ 0)) = 15 :=
      roundAway_eq_nonneg (by linarith) (by push_cast; linarith) (by push_cast; linarith)
    rw [h15]
    decide

end Vengi
